import Mathlib

/-!  Verification of the pipeline-ts library (Railway Oriented Programming
utilities).  The definitions below are shallow embeddings of the TypeScript
source: `Result`/`Success`/`Failure` from src/result.ts, the pipeline
composers from src/pipe.ts and lib/pipe-sync.ts, the validation algebra from
lib/validation.ts, and the asynchronous orchestration helpers (`parallel`,
`race`, `retry`) from the extended result module.  Asynchronous operations
are modelled as already-settled outcomes paired with a completion time;
the embedding of `Promise.all` / `Promise.allSettled` records the semantic
fact that both resolve with results in argument order.  JavaScript runtime
exceptions (calling `undefined`, the uninitialized `lastError`) are made
explicit with `Except` and `Option`.  -/

namespace PipelineTs

/-- Embedding of `Result<T, E> = Success<T> | Failure<E>` from src/result.ts:
a tagged union with exactly two variants, `success` holding a value and
`failure` holding an error payload. -/
inductive Result (α ε : Type) where
  | success : α → Result α ε
  | failure : ε → Result α ε
deriving Repr, DecidableEq

/-- Embedding of `isSuccess` from src/result.ts. -/
def isSuccess {α ε : Type} : Result α ε → Bool
  | .success _ => true
  | .failure _ => false

/-- Embedding of `isFailure` from src/result.ts. -/
def isFailure {α ε : Type} : Result α ε → Bool
  | .success _ => false
  | .failure _ => true

/-- JavaScript runtime exceptions that the embedded code can raise.
`typeError` models calling `undefined` as a function (`fns[0](arg)` on an
empty argument list). -/
inductive JSError where
  | typeError
deriving Repr, DecidableEq

/-- Bool discriminator for `Except`: did the computation return normally
(no exception)? -/
def exceptOk {γ : Type} : Except JSError γ → Bool
  | .ok _ => true
  | .error _ => false

/-- Embedding of the loop body of `pipe` (src/pipe.ts lines 80-85): starting
from the first step's result, each remaining step runs only if the current
result is a success; on a failure the loop breaks and the failure is
returned. -/
def runSteps {α ε : Type} : List (α → Result α ε) → Result α ε → Result α ε
  | [], r => r
  | _ :: _, .failure e => .failure e
  | f :: rest, .success v => runSteps rest (f v)

/-- Embedding of applying the function returned by `pipe` (src/pipe.ts) to an
input.  With zero steps, `fns[0]` is `undefined` and calling it throws a
TypeError at invocation time; otherwise the steps are threaded with failure
short-circuiting. -/
def pipeRun {α ε : Type} (fns : List (α → Result α ε)) (arg : α) :
    Except JSError (Result α ε) :=
  match fns with
  | [] => .error .typeError
  | f :: rest => .ok (runSteps rest (f arg))

/-- Embedding of the call `pipe(...fns)` itself (src/pipe.ts lines 66-87).
The result type allows a raised exception so that composition-time behavior
can be stated; the source body performs no check on `fns` and always returns
the composed runner. -/
def pipeCompose {α ε : Type} (fns : List (α → Result α ε)) :
    Except JSError (α → Except JSError (Result α ε)) :=
  .ok (pipeRun fns)

/-- Instrumented variant of `runSteps` that additionally counts how many step
functions have been invoked. -/
def runStepsCount {α ε : Type} :
    List (α → Result α ε) → Result α ε → Nat → Result α ε × Nat
  | [], r, n => (r, n)
  | _ :: _, .failure e, n => (.failure e, n)
  | f :: rest, .success v, n => runStepsCount rest (f v) (n + 1)

/-- Instrumented variant of `pipeRun` returning the result together with the
number of step functions invoked. -/
def pipeRunCount {α ε : Type} (fns : List (α → Result α ε)) (arg : α) :
    Except JSError (Result α ε × Nat) :=
  match fns with
  | [] => .error .typeError
  | f :: rest => .ok (runStepsCount rest (f arg) 1)

/-- Embedding of the loop body of `pipeSync` (lib/pipe-sync.ts lines 75-80):
identical short-circuit threading, with no deferral. -/
def runStepsSync {α ε : Type} : List (α → Result α ε) → Result α ε → Result α ε
  | [], r => r
  | _ :: _, .failure e => .failure e
  | f :: rest, .success v => runStepsSync rest (f v)

/-- Embedding of applying the function returned by `pipeSync`
(lib/pipe-sync.ts lines 65-82) to an input. -/
def pipeSyncRun {α ε : Type} (fns : List (α → Result α ε)) (arg : α) :
    Except JSError (Result α ε) :=
  match fns with
  | [] => .error .typeError
  | f :: rest => .ok (runStepsSync rest (f arg))

/-- Embedding of the call `pipeSync(...fns)` itself: the source performs no
runtime check on `fns` and always returns the composed runner. -/
def pipeSyncCompose {α ε : Type} (fns : List (α → Result α ε)) :
    Except JSError (α → Except JSError (Result α ε)) :=
  .ok (pipeSyncRun fns)

/-- Embedding of the object returned by `lazyPipe` (lib/pipe-sync.ts lines
91-108): it holds the accumulated step functions. -/
structure LazyPipe (α ε : Type) where
  fns : List (α → Result α ε)

/-- Embedding of the call `lazyPipe(...fns)`: no check is performed on
`fns`. -/
def lazyPipe {α ε : Type} (fns : List (α → Result α ε)) : LazyPipe α ε :=
  ⟨fns⟩

/-- Embedding of `lazyPipe(...).run(arg)` (lib/pipe-sync.ts lines 95-102):
`fns[0](arg)` throws a TypeError when the step list is empty; otherwise the
steps are threaded with failure short-circuiting. -/
def LazyPipe.run {α ε : Type} (p : LazyPipe α ε) (arg : α) :
    Except JSError (Result α ε) :=
  match p.fns with
  | [] => .error .typeError
  | f :: rest => .ok (runStepsSync rest (f arg))

/-- Embedding of `lazyPipe(...).map(fn)` (lib/pipe-sync.ts lines 103-104):
immutable accumulation of one more step. -/
def LazyPipe.mapStep {α ε : Type} (p : LazyPipe α ε) (f : α → Result α ε) :
    LazyPipe α ε :=
  ⟨p.fns ++ [f]⟩

/-- Embedding of `lazyPipe(...).flatMap(fn)` (lib/pipe-sync.ts lines
105-106), which accumulates exactly like `map`. -/
def LazyPipe.flatMapStep {α ε : Type} (p : LazyPipe α ε) (f : α → Result α ε) :
    LazyPipe α ε :=
  ⟨p.fns ++ [f]⟩

/-- Specification-side helper: thread an input through a list of steps,
returning the final success value if every step succeeds, and `none` as soon
as some step fails. -/
def threadOk {α ε : Type} : List (α → Result α ε) → α → Option α
  | [], a => some a
  | f :: rest, a =>
    match f a with
    | .success v => threadOk rest v
    | .failure _ => none

/-- A universe of JavaScript runtime values, rich enough to express the
dynamic `Array.isArray` dispatch inside `invalid` (lib/validation.ts): a
value is a number, a string, or an array of values. -/
inductive JSV where
  | num : Int → JSV
  | str : String → JSV
  | arr : List JSV → JSV

/-- Embedding of `Array.isArray` restricted to the `JSV` universe. -/
def isArray : JSV → Bool
  | .arr _ => true
  | _ => false

/-- Embedding of `valid` (lib/validation.ts line 16): a validation success.
A `Validation<T, E>` is represented as `Result α (List ε)`: its failure
channel holds an ordered collection of errors. -/
def valid {α ε : Type} (v : α) : Result α (List ε) :=
  .success v

/-- Embedding of `invalid` (lib/validation.ts lines 24-25):
`failure(Array.isArray(error) ? error : [error])`.  An array argument is
used as the error collection itself; any other value is lifted to a
one-element collection. -/
def invalid {α : Type} (e : JSV) : Result α (List JSV) :=
  match e with
  | .arr es => .failure es
  | _ => .failure [e]

/-- Embedding of the accumulation loop shared by `combine` and `sequence`
(lib/validation.ts): failing validations append their whole error
collections to `errs`, succeeding ones append their value to `vals`, in
argument order. -/
def collectV {α ε : Type} :
    List (Result α (List ε)) → List ε → List α → List ε × List α
  | [], errs, vals => (errs, vals)
  | .failure es :: rest, errs, vals => collectV rest (errs ++ es) vals
  | .success a :: rest, errs, vals => collectV rest errs (vals ++ [a])

/-- Embedding of `combine` (lib/validation.ts lines 34-49): accumulate the
errors of every failing validation and the values of every succeeding one,
then return a failure exactly when at least one error was collected. -/
def combine {α ε : Type} (vs : List (Result α (List ε))) :
    Result (List α) (List ε) :=
  if (collectV vs [] []).1.length > 0 then .failure (collectV vs [] []).1
  else .success (collectV vs [] []).2

/-- Embedding of `sequence` (lib/validation.ts lines 83-98), whose loop is
identical to the one in `combine`. -/
def sequence {α ε : Type} (vs : List (Result α (List ε))) :
    Result (List α) (List ε) :=
  if (collectV vs [] []).1.length > 0 then .failure (collectV vs [] []).1
  else .success (collectV vs [] []).2

/-- Embedding of the loop of `validateObject` (lib/validation.ts lines
58-74): each named validator is applied to the correspondingly named field
of the input, accumulating errors and validated fields in the validator
list's order. -/
def collectObj {κ ι α ε : Type} (input : κ → ι) :
    List (κ × (ι → Result α (List ε))) → List ε → List (κ × α) →
      List ε × List (κ × α)
  | [], errs, out => (errs, out)
  | (k, vf) :: rest, errs, out =>
    match vf (input k) with
    | .failure es => collectObj input rest (errs ++ es) out
    | .success a => collectObj input rest errs (out ++ [(k, a)])

/-- Embedding of `validateObject` (lib/validation.ts lines 58-74).  The
validator map is a list of key/validator pairs in iteration order, and the
input object is a function from keys to field values. -/
def validateObject {κ ι α ε : Type}
    (validators : List (κ × (ι → Result α (List ε)))) (input : κ → ι) :
    Result (List (κ × α)) (List ε) :=
  if (collectObj input validators [] []).1.length > 0 then
    .failure (collectObj input validators [] []).1
  else .success (collectObj input validators [] []).2

/-- Embedding of `applyValidation` (lib/validation.ts lines 121-133): apply
when both sides succeed, otherwise concatenate the error collections of
whichever sides failed, function side first. -/
def applyValidation {α β ε : Type} (fv : Result (α → β) (List ε))
    (v : Result α (List ε)) : Result β (List ε) :=
  match fv, v with
  | .success f, .success a => .success (f a)
  | _, _ =>
    .failure ((match fv with | .failure es => es | .success _ => []) ++
      (match v with | .failure es => es | .success _ => []))

/-- Embedding of `fromResult` (lib/validation.ts lines 142-143): successes
map to `valid`, failures hand their error payload to `invalid` (which
dispatches on `Array.isArray`). -/
def fromResult {α : Type} : Result α JSV → Result α (List JSV)
  | .success v => valid v
  | .failure e => invalid e

/-- Embedding of `toResult` (lib/validation.ts lines 152-153): a bare cast,
the identity on the representation. -/
def toResult {α : Type} (v : Result α (List JSV)) : Result α (List JSV) :=
  v

/-- Specification-side helper: the concatenation of the error collections of
the failing validations, in argument order. -/
def joinErrorsV {α ε : Type} : List (Result α (List ε)) → List ε
  | [] => []
  | .failure es :: rest => es ++ joinErrorsV rest
  | .success _ :: rest => joinErrorsV rest

/-- Specification-side helper: the values of the succeeding validations, in
argument order. -/
def valuesOfV {α ε : Type} : List (Result α (List ε)) → List α
  | [] => []
  | .failure _ :: rest => valuesOfV rest
  | .success a :: rest => a :: valuesOfV rest

/-!  Asynchronous orchestration helpers.  A zero-argument operation that has
been started is modelled by the outcome it settles with, paired with its
completion time: `(time, result)`.  Operations in the claims return
`Result` values (they do not throw), so every promise fulfills. -/

/-- Semantic fact about `Promise.all` / `Promise.allSettled` used by
`parallel` and `race`: after all operations complete, the list of settled
results is in argument order, regardless of the completion times. -/
def settleAll {α ε : Type} (ops : List (Nat × Result α ε)) : List (Result α ε) :=
  ops.map (fun p => p.2)

/-- Embedding of the accumulation loop of `parallel`: each failing result
appends its single error to `errs`, each succeeding result appends its value
to `vals`, in the order of the settled list. -/
def collectR {α ε : Type} :
    List (Result α ε) → List ε → List α → List ε × List α
  | [], errs, vals => (errs, vals)
  | .failure e :: rest, errs, vals => collectR rest (errs ++ [e]) vals
  | .success v :: rest, errs, vals => collectR rest errs (vals ++ [v])

/-- Embedding of `parallel` (extended result module, lines 125-141): wait
for all operations, collect errors of the failing ones and values of the
succeeding ones in argument order, and fail exactly when some error was
collected. -/
def parallel {α ε : Type} (ops : List (Nat × Result α ε)) :
    Result (List α) (List ε) :=
  if (collectR (settleAll ops) [] []).1.length > 0 then
    .failure (collectR (settleAll ops) [] []).1
  else .success (collectR (settleAll ops) [] []).2

/-- Embedding of the scan loop of `race` (extended result module, lines
156-164): walk the settled results, returning the first success encountered
and otherwise accumulating each failure's error; when no success is found,
fail with the accumulated errors. -/
def raceScan {α ε : Type} : List (Result α ε) → List ε → Result α (List ε)
  | [], errs => .failure errs
  | .success v :: _, _ => .success v
  | .failure e :: rest, errs => raceScan rest (errs ++ [e])

/-- Embedding of `race` (extended result module, lines 150-165): await
`Promise.allSettled` of all operations, then scan the settled list. -/
def race {α ε : Type} (ops : List (Nat × Result α ε)) : Result α (List ε) :=
  raceScan (settleAll ops) []

/-- Stable insertion of an operation into a list sorted by completion
time. -/
def insertByTime {α ε : Type} (p : Nat × Result α ε) :
    List (Nat × Result α ε) → List (Nat × Result α ε)
  | [] => [p]
  | q :: rest => if p.1 ≤ q.1 then p :: q :: rest else q :: insertByTime p rest

/-- Stable sort of the operations by completion time: the order in which the
operations are observed to complete. -/
def sortByTime {α ε : Type} :
    List (Nat × Result α ε) → List (Nat × Result α ε)
  | [] => []
  | p :: rest => insertByTime p (sortByTime rest)

/-- Modelled from the spec: the claimed behavior of `race` — the first
success observed by completion time, and on no success the failures'
errors in completion order.  Used to compare the claim against the
implementation `race`. -/
def raceByCompletion {α ε : Type} (ops : List (Nat × Result α ε)) :
    Result α (List ε) :=
  raceScan (settleAll (sortByTime ops)) []

/-- Specification-side helper: the errors of the failing results, one per
failing result, in list order. -/
def errorsOf {α ε : Type} : List (Result α ε) → List ε
  | [] => []
  | .failure e :: rest => e :: errorsOf rest
  | .success _ :: rest => errorsOf rest

/-- Specification-side helper: the values of the succeeding results in list
order. -/
def valuesOf {α ε : Type} : List (Result α ε) → List α
  | [] => []
  | .failure _ :: rest => valuesOf rest
  | .success v :: rest => v :: valuesOf rest

/-- What one call to `retry` produces: the returned result (whose error
channel is `Option ε` because the source's `lastError` starts uninitialized,
so the returned error payload can be `undefined`, modelled as `none`), the
number of times the operation was invoked, and the `(attempt, error)` pairs
the `onRetry` callback is invoked with, in order. -/
structure RetryOutcome (α ε : Type) where
  result : Result α (Option ε)
  invocations : Nat
  onRetryCalls : List (Nat × ε)
deriving Repr, DecidableEq

/-- Embedding of the attempt loop of `retry` (extended result module, lines
212-232).  The operation is modelled as `fn : Nat → Result α ε`, giving the
settled outcome of its k-th invocation (1-based).  `fuel` is the number of
remaining loop iterations (`for attempt = 1; attempt <= maxAttempts`), and
the loop body: invoke, return on success, record `lastError`, and when
`attempt < maxAttempts` invoke `onRetry` (recorded) and sleep (timing not
modelled). -/
def retryGo {α ε : Type} (fn : Nat → Result α ε) (maxAttempts : Int) :
    Nat → Nat → Option ε → Nat → List (Nat × ε) → RetryOutcome α ε
  | 0, _, lastError, inv, calls => ⟨.failure lastError, inv, calls⟩
  | fuel + 1, attempt, _, inv, calls =>
    match fn attempt with
    | .success v => ⟨.success v, inv + 1, calls⟩
    | .failure e =>
      if (attempt : Int) < maxAttempts then
        retryGo fn maxAttempts fuel (attempt + 1) (some e) (inv + 1)
          (calls ++ [(attempt, e)])
      else
        retryGo fn maxAttempts fuel (attempt + 1) (some e) (inv + 1) calls

/-- Embedding of `retry` (extended result module, lines 198-235) with an
explicit `maxAttempts` (an integer, as in JavaScript).  The loop runs
`max maxAttempts 0` iterations; with no iterations the uninitialized
`lastError` (that is, `undefined`) is returned inside `failure`. -/
def retry {α ε : Type} (fn : Nat → Result α ε) (maxAttempts : Int) :
    RetryOutcome α ε :=
  retryGo fn maxAttempts maxAttempts.toNat 1 none 0 []

/-!  Helper lemmas about the pipeline runners. -/

lemma runSteps_failure {α ε : Type} :
    ∀ (fns : List (α → Result α ε)) (e : ε), runSteps fns (.failure e) = .failure e
  | [], _ => rfl
  | _ :: _, _ => rfl

lemma runStepsCount_failure {α ε : Type} :
    ∀ (fns : List (α → Result α ε)) (e : ε) (n : Nat),
      runStepsCount fns (.failure e) n = (.failure e, n)
  | [], _, _ => rfl
  | _ :: _, _, _ => rfl

lemma runSteps_thread {α ε : Type} :
    ∀ (fns : List (α → Result α ε)) (a v : α), threadOk fns a = some v →
      ∀ rest : List (α → Result α ε),
        runSteps (fns ++ rest) (.success a) = runSteps rest (.success v)
  | [], a, v, h, rest => by
    simp [threadOk] at h
    subst h
    rfl
  | f :: fns2, a, v, h, rest => by
    cases hf : f a with
    | success w =>
      have h2 : threadOk fns2 w = some v := by simpa [threadOk, hf] using h
      show runSteps (fns2 ++ rest) (f a) = _
      rw [hf]
      exact runSteps_thread fns2 w v h2 rest
    | failure e0 => simp [threadOk, hf] at h

lemma runStepsCount_thread {α ε : Type} :
    ∀ (fns : List (α → Result α ε)) (a v : α), threadOk fns a = some v →
      ∀ (rest : List (α → Result α ε)) (n : Nat),
        runStepsCount (fns ++ rest) (.success a) n =
          runStepsCount rest (.success v) (n + fns.length)
  | [], a, v, h, rest, n => by
    simp [threadOk] at h
    subst h
    simp
  | f :: fns2, a, v, h, rest, n => by
    cases hf : f a with
    | success w =>
      have h2 : threadOk fns2 w = some v := by simpa [threadOk, hf] using h
      show runStepsCount (fns2 ++ rest) (f a) (n + 1) = _
      rw [hf, runStepsCount_thread fns2 w v h2 rest (n + 1)]
      congr 1
      simp only [List.length_cons]
      omega
    | failure e0 => simp [threadOk, hf] at h

lemma runStepsSync_eq {α ε : Type} :
    ∀ (fns : List (α → Result α ε)) (r : Result α ε),
      runStepsSync fns r = runSteps fns r
  | [], _ => rfl
  | _ :: _, .failure _ => rfl
  | f :: rest, .success v => runStepsSync_eq rest (f v)

lemma pipeSyncRun_eq {α ε : Type} (fns : List (α → Result α ε)) (arg : α) :
    pipeSyncRun fns arg = pipeRun fns arg := by
  cases fns with
  | nil => rfl
  | cons f rest =>
    show Except.ok (runStepsSync rest (f arg)) = Except.ok (runSteps rest (f arg))
    rw [runStepsSync_eq]

lemma pipeRun_thread {α ε : Type} (pre : List (α → Result α ε))
    (f : α → Result α ε) (rest : List (α → Result α ε)) (arg v : α)
    (h : threadOk pre arg = some v) :
    pipeRun (pre ++ f :: rest) arg = .ok (runSteps rest (f v)) := by
  cases pre with
  | nil =>
    simp [threadOk] at h
    subst h
    rfl
  | cons g pre2 =>
    cases hg : g arg with
    | success w =>
      have h2 : threadOk pre2 w = some v := by simpa [threadOk, hg] using h
      show Except.ok (runSteps (pre2 ++ f :: rest) (g arg)) = _
      rw [hg, runSteps_thread pre2 w v h2 (f :: rest)]
      rfl
    | failure e0 => simp [threadOk, hg] at h

lemma pipeRunCount_thread {α ε : Type} (pre : List (α → Result α ε))
    (f : α → Result α ε) (rest : List (α → Result α ε)) (arg v : α)
    (h : threadOk pre arg = some v) :
    pipeRunCount (pre ++ f :: rest) arg =
      .ok (runStepsCount rest (f v) (pre.length + 1)) := by
  cases pre with
  | nil =>
    simp [threadOk] at h
    subst h
    rfl
  | cons g pre2 =>
    cases hg : g arg with
    | success w =>
      have h2 : threadOk pre2 w = some v := by simpa [threadOk, hg] using h
      show Except.ok (runStepsCount (pre2 ++ f :: rest) (g arg) 1) = _
      rw [hg, runStepsCount_thread pre2 w v h2 (f :: rest) 1]
      have hl : 1 + pre2.length = pre2.length + 1 := Nat.add_comm 1 _
      rw [hl]
      rfl
    | failure e0 => simp [threadOk, hg] at h

/-- C2 (counterexample to the claim as stated): with zero step functions the
composition calls `pipe()`, `pipeSync()` and `lazyPipe()` all return normally
(no configuration error at composition time), while applying the composed
function to an input raises a TypeError at invocation time. -/
theorem zero_step_pipeline_counterexample :
    exceptOk (pipeCompose ([] : List (Nat → Result Nat String))) = true ∧
    pipeRun ([] : List (Nat → Result Nat String)) 0 = .error .typeError ∧
    exceptOk (pipeSyncCompose ([] : List (Nat → Result Nat String))) = true ∧
    pipeSyncRun ([] : List (Nat → Result Nat String)) 0 = .error .typeError ∧
    (lazyPipe ([] : List (Nat → Result Nat String))).run 0 = .error .typeError :=
  ⟨rfl, rfl, rfl, rfl, rfl⟩

/-- C2 (amended): constructing a pipeline with zero step functions succeeds
at composition time for all three composition forms — `pipe`, `pipeSync` and
`lazyPipe` perform no runtime check and return the composed runner — and the
zero-step error (calling the absent first step, a TypeError) surfaces only at
invocation time, when the composed function (or `run`) is applied to an
input; a pipeline with at least one step never raises it. -/
theorem zero_step_pipeline_error_at_invocation (α ε : Type) :
    (∀ fns : List (α → Result α ε), exceptOk (pipeCompose fns) = true) ∧
    (∀ fns : List (α → Result α ε), exceptOk (pipeSyncCompose fns) = true) ∧
    (∀ arg : α, pipeRun ([] : List (α → Result α ε)) arg = .error .typeError) ∧
    (∀ arg : α, pipeSyncRun ([] : List (α → Result α ε)) arg = .error .typeError) ∧
    (∀ arg : α, (lazyPipe ([] : List (α → Result α ε))).run arg = .error .typeError) ∧
    (∀ (f : α → Result α ε) (fns : List (α → Result α ε)) (arg : α),
      pipeRun (f :: fns) arg = .ok (runSteps fns (f arg))) :=
  ⟨fun _ => rfl, fun _ => rfl, fun _ => rfl, fun _ => rfl, fun _ => rfl,
    fun _ _ _ => rfl⟩

/-- C6: in a pipeline whose steps up to some step `f` all succeed (threading
the input to the value `v`) and where `f v` fails, both the asynchronous and
the synchronous pipeline return exactly that first failure, and exactly
`pre.length + 1` step functions are invoked — no step after `f` runs; and
when every step before the last succeeds, the pipeline's result is the last
step's outcome. -/
theorem pipeline_short_circuits_on_first_failure (α ε : Type)
    (pre post : List (α → Result α ε)) (f : α → Result α ε) (arg v : α) (e : ε)
    (hpre : threadOk pre arg = some v) (hf : f v = .failure e) :
    pipeRun (pre ++ f :: post) arg = .ok (.failure e) ∧
    pipeRunCount (pre ++ f :: post) arg = .ok (.failure e, pre.length + 1) ∧
    pipeSyncRun (pre ++ f :: post) arg = .ok (.failure e) ∧
    (∀ g : α → Result α ε,
      pipeRun (pre ++ [g]) arg = .ok (g v) ∧
      pipeSyncRun (pre ++ [g]) arg = .ok (g v)) := by
  have h1 : pipeRun (pre ++ f :: post) arg = .ok (.failure e) := by
    rw [pipeRun_thread pre f post arg v hpre, hf, runSteps_failure]
  refine ⟨h1, ?_, ?_, ?_⟩
  · rw [pipeRunCount_thread pre f post arg v hpre, hf, runStepsCount_failure]
  · rw [pipeSyncRun_eq]
    exact h1
  · intro g
    have h2 : pipeRun (pre ++ [g]) arg = .ok (g v) := by
      rw [pipeRun_thread pre g [] arg v hpre]
      rfl
    exact ⟨h2, by rw [pipeSyncRun_eq]; exact h2⟩

/-- Witness for C6 at a concrete pipeline: the second step fails, the third
is never invoked, and exactly two steps run. -/
theorem pipeline_short_circuit_witness :
    pipeRun [fun n => (Result.success (n + 1) : Result Nat String),
      fun _ => .failure "boom", fun n => .success (n * 2)] 3 =
      .ok (.failure "boom") ∧
    pipeRunCount [fun n => (Result.success (n + 1) : Result Nat String),
      fun _ => .failure "boom", fun n => .success (n * 2)] 3 =
      .ok (.failure "boom", 2) := by
  have h := pipeline_short_circuits_on_first_failure Nat String
    [fun n => Result.success (n + 1)] [fun n => Result.success (n * 2)]
    (fun _ => Result.failure "boom") 3 4 "boom" rfl rfl
  exact ⟨h.1, h.2.1⟩

/-!  Helper lemmas about the asynchronous helpers. -/

lemma raceScan_all_failures {α ε : Type} :
    ∀ (es errs : List ε),
      raceScan (es.map (Result.failure : ε → Result α ε)) errs =
        .failure (errs ++ es)
  | [], errs => by simp [raceScan]
  | e :: es2, errs => by
    show raceScan (es2.map Result.failure) (errs ++ [e]) = _
    rw [raceScan_all_failures es2 (errs ++ [e])]
    simp

lemma raceScan_first_success {α ε : Type} :
    ∀ (pre : List (Result α ε)) (v : α) (post : List (Result α ε))
      (errs : List ε), (∀ r ∈ pre, isFailure r = true) →
      raceScan (pre ++ .success v :: post) errs = .success v
  | [], _, _, _, _ => rfl
  | r :: pre2, v, post, errs, h => by
    cases r with
    | success w =>
      have hw := h (.success w) (by simp)
      simp [isFailure] at hw
    | failure e =>
      show raceScan (pre2 ++ .success v :: post) (errs ++ [e]) = _
      exact raceScan_first_success pre2 v post (errs ++ [e])
        (fun r hr => h r (by simp [hr]))

lemma collectR_spec {α ε : Type} :
    ∀ (rs : List (Result α ε)) (errs : List ε) (vals : List α),
      collectR rs errs vals = (errs ++ errorsOf rs, vals ++ valuesOf rs)
  | [], errs, vals => by simp [collectR, errorsOf, valuesOf]
  | .failure e :: rest, errs, vals => by
    show collectR rest (errs ++ [e]) vals = _
    rw [collectR_spec rest (errs ++ [e]) vals]
    simp [errorsOf, valuesOf]
  | .success v :: rest, errs, vals => by
    show collectR rest errs (vals ++ [v]) = _
    rw [collectR_spec rest errs (vals ++ [v])]
    simp [errorsOf, valuesOf]

lemma errorsOf_map_success {α ε : Type} :
    ∀ xs : List α, errorsOf (xs.map (Result.success : α → Result α ε)) = []
  | [] => rfl
  | _ :: xs2 => errorsOf_map_success xs2

lemma valuesOf_map_success {α ε : Type} :
    ∀ xs : List α, valuesOf (xs.map (Result.success : α → Result α ε)) = xs
  | [] => rfl
  | x :: xs2 => by
    show x :: valuesOf (xs2.map Result.success) = x :: xs2
    rw [valuesOf_map_success xs2]

lemma errorsOf_ne_nil {α ε : Type} :
    ∀ (rs : List (Result α ε)) (r : Result α ε), r ∈ rs →
      isFailure r = true → errorsOf rs ≠ []
  | [], r, hr, _ => by simp at hr
  | a :: rs2, r, hr, hfail => by
    cases a with
    | failure e => simp [errorsOf]
    | success w =>
      rcases List.mem_cons.mp hr with h1 | h1
      · subst h1
        simp [isFailure] at hfail
      · show errorsOf (rs2 : List (Result α ε)) ≠ []
        exact errorsOf_ne_nil rs2 r h1 hfail

/-- C9: calling `race` with zero operations returns a failure carrying an
empty error collection — it neither succeeds nor raises any exception (the
definition is total and the scan over the empty settled list produces
`failure []`). -/
theorem race_empty_operations (α ε : Type) :
    race ([] : List (Nat × Result α ε)) = .failure [] :=
  rfl

/-- C1 (counterexample to the claim as stated): with two operations that
both succeed, the one completing earlier (time 5, value 2) is not the one
returned — `race` returns the first success in argument order (value 1);
and with two failing operations the error collection is in argument order,
not completion order. -/
theorem race_not_first_by_completion :
    race [((10 : Nat), (Result.success 1 : Result Nat String)),
      (5, .success 2)] = .success 1 ∧
    raceByCompletion [((10 : Nat), (Result.success 1 : Result Nat String)),
      (5, .success 2)] = .success 2 ∧
    race [((10 : Nat), (Result.failure "a" : Result Nat String)),
      (5, .failure "b")] = .failure ["a", "b"] ∧
    raceByCompletion [((10 : Nat), (Result.failure "a" : Result Nat String)),
      (5, .failure "b")] = .failure ["b", "a"] ∧
    race [((10 : Nat), (Result.success 1 : Result Nat String)),
      (5, .success 2)] ≠
      raceByCompletion [((10 : Nat), (Result.success 1 : Result Nat String)),
        (5, .success 2)] := by
  refine ⟨rfl, rfl, rfl, rfl, ?_⟩
  decide

/-- C1 (amended): `race` waits for all operations to settle and then scans
the settled results in argument order: completion times never influence the
outcome; the returned success is the first success in argument order (any
earlier-listed operations having failed), and when every operation fails the
error collection holds all errors in argument order. -/
theorem race_scans_in_argument_order (α ε : Type) :
    (∀ ops opsB : List (Nat × Result α ε),
      settleAll ops = settleAll opsB → race ops = race opsB) ∧
    (∀ (ops : List (Nat × Result α ε)) (pre : List (Result α ε)) (v : α)
      (post : List (Result α ε)),
      settleAll ops = pre ++ .success v :: post →
      (∀ r ∈ pre, isFailure r = true) → race ops = .success v) ∧
    (∀ (ops : List (Nat × Result α ε)) (es : List ε),
      settleAll ops = es.map Result.failure → race ops = .failure es) := by
  refine ⟨?_, ?_, ?_⟩
  · intro ops opsB h
    unfold race
    rw [h]
  · intro ops pre v post h hpre
    unfold race
    rw [h]
    exact raceScan_first_success pre v post [] hpre
  · intro ops es h
    unfold race
    rw [h]
    simpa using raceScan_all_failures es []

/-- Witness for C1 (amended) at concrete operation lists. -/
theorem race_scans_witness :
    race [((5 : Nat), (Result.failure "a" : Result Nat String)),
      (1, .success 7), (0, .success 9)] = .success 7 ∧
    race [((3 : Nat), (Result.failure "a" : Result Nat String)),
      (2, .failure "b")] = .failure ["a", "b"] := by
  have h := race_scans_in_argument_order Nat String
  constructor
  · exact h.2.1 _ [Result.failure "a"] 7 [Result.success 9] rfl
      (by simp [isFailure])
  · exact h.2.2 _ ["a", "b"] rfl

/-- C8: `parallel` waits for all operations and depends only on the settled
results in argument order (completion times never influence the outcome);
when every operation succeeds it returns the success of all values in
argument order, and when some operation fails it returns a failure holding
exactly the errors of the failing operations, in argument order. -/
theorem parallel_collects_in_argument_order (α ε : Type) :
    (∀ ops opsB : List (Nat × Result α ε),
      settleAll ops = settleAll opsB → parallel ops = parallel opsB) ∧
    (∀ (ops : List (Nat × Result α ε)) (xs : List α),
      settleAll ops = xs.map Result.success → parallel ops = .success xs) ∧
    (∀ ops : List (Nat × Result α ε),
      (∃ p ∈ ops, isFailure p.2 = true) →
      parallel ops = .failure (errorsOf (settleAll ops))) := by
  refine ⟨?_, ?_, ?_⟩
  · intro ops opsB h
    unfold parallel
    rw [h]
  · intro ops xs h
    unfold parallel
    rw [h, collectR_spec]
    simp [errorsOf_map_success, valuesOf_map_success]
  · intro ops h
    obtain ⟨p, hp, hfail⟩ := h
    have hmem : p.2 ∈ settleAll ops := List.mem_map_of_mem (fun q => q.2) hp
    have hne : errorsOf (settleAll ops) ≠ [] :=
      errorsOf_ne_nil (settleAll ops) p.2 hmem hfail
    unfold parallel
    rw [collectR_spec]
    simp only [List.nil_append]
    rw [if_pos (List.length_pos.mpr hne)]

/-- Witness for C8 at concrete operation lists: all succeed (with the middle
operation completing fastest) and a mixed success/failure list. -/
theorem parallel_collects_witness :
    parallel [((3 : Nat), (Result.success 1 : Result Nat String)),
      (1, .success 2), (2, .success 3)] = .success [1, 2, 3] ∧
    parallel [((1 : Nat), (Result.failure "x" : Result Nat String)),
      (0, .success 5), (2, .failure "y")] = .failure ["x", "y"] := by
  have h := parallel_collects_in_argument_order Nat String
  constructor
  · exact h.2.1 _ [1, 2, 3] rfl
  · exact (h.2.2 _ ⟨(1, Result.failure "x"), by simp, rfl⟩).trans (by decide)

/-!  Helper lemmas about the validation algebra. -/

lemma collectV_spec {α ε : Type} :
    ∀ (vs : List (Result α (List ε))) (errs : List ε) (vals : List α),
      collectV vs errs vals = (errs ++ joinErrorsV vs, vals ++ valuesOfV vs)
  | [], errs, vals => by simp [collectV, joinErrorsV, valuesOfV]
  | .failure es :: rest, errs, vals => by
    show collectV rest (errs ++ es) vals = _
    rw [collectV_spec rest (errs ++ es) vals]
    simp [joinErrorsV, valuesOfV]
  | .success a :: rest, errs, vals => by
    show collectV rest errs (vals ++ [a]) = _
    rw [collectV_spec rest errs (vals ++ [a])]
    simp [joinErrorsV, valuesOfV]

lemma joinErrorsV_map_success {α ε : Type} :
    ∀ xs : List α,
      joinErrorsV (xs.map (Result.success : α → Result α (List ε))) = []
  | [] => rfl
  | _ :: xs2 => joinErrorsV_map_success xs2

lemma valuesOfV_map_success {α ε : Type} :
    ∀ xs : List α,
      valuesOfV (xs.map (Result.success : α → Result α (List ε))) = xs
  | [] => rfl
  | x :: xs2 => by
    show x :: valuesOfV (xs2.map Result.success) = x :: xs2
    rw [valuesOfV_map_success xs2]

lemma joinErrorsV_ne_nil {α ε : Type} :
    ∀ (vs : List (Result α (List ε))) (es : List ε), Result.failure es ∈ vs →
      es ≠ [] → joinErrorsV vs ≠ []
  | [], es, hmem, _ => by simp at hmem
  | a :: vs2, es, hmem, hne => by
    rcases List.mem_cons.mp hmem with h1 | h1
    · subst h1
      show es ++ joinErrorsV vs2 ≠ []
      simp [hne]
    · cases a with
      | failure es2 =>
        show es2 ++ joinErrorsV vs2 ≠ []
        have := joinErrorsV_ne_nil vs2 es h1 hne
        simp [this]
      | success w =>
        show joinErrorsV (vs2 : List (Result α (List ε))) ≠ []
        exact joinErrorsV_ne_nil vs2 es h1 hne

/-- C5: for every list of validations whose failures each carry a non-empty
error collection (the `Validation` data-model invariant), `combine` returns
the success of all values in argument order when every input is a success,
and otherwise a failure holding the concatenation of every failing input's
error collection, in argument order. -/
theorem combine_accumulates_all_errors (α ε : Type)
    (vs : List (Result α (List ε))) (xs : List α)
    (hwf : ∀ es : List ε, Result.failure es ∈ vs → es ≠ []) :
    (vs = xs.map Result.success → combine vs = .success xs) ∧
    ((∃ r ∈ vs, isFailure r = true) → combine vs = .failure (joinErrorsV vs)) := by
  constructor
  · intro h
    subst h
    unfold combine
    rw [collectV_spec]
    simp [joinErrorsV_map_success, valuesOfV_map_success]
  · intro h
    obtain ⟨r, hr, hfail⟩ := h
    have hes : ∃ es : List ε, r = Result.failure es := by
      cases r with
      | success a => simp [isFailure] at hfail
      | failure es => exact ⟨es, rfl⟩
    obtain ⟨es, rfl⟩ := hes
    have hne : joinErrorsV vs ≠ [] := joinErrorsV_ne_nil vs es hr (hwf es hr)
    unfold combine
    rw [collectV_spec]
    simp only [List.nil_append]
    rw [if_pos (List.length_pos.mpr hne)]

/-- Witness for C5 at the spec's own example: `combine(valid 1, invalid e1,
invalid e2)` yields the failure `[e1, e2]` with both errors, in argument
order. -/
theorem combine_accumulates_witness :
    combine [Result.success 1,
      (Result.failure ["e1"] : Result Nat (List String)),
      Result.failure ["e2"]] = .failure ["e1", "e2"] := by
  have h := combine_accumulates_all_errors Nat String
    [Result.success 1, Result.failure ["e1"], Result.failure ["e2"]] []
    (by
      intro es hmem
      simp at hmem
      rcases hmem with h1 | h1 <;> subst h1 <;> simp)
  exact (h.2 ⟨Result.failure ["e1"], by simp, rfl⟩).trans (by decide)

/-- C3 (counterexample to the claim as stated): `invalid` applied to an
empty array produces a failure whose error collection is empty, and
`applyValidation` propagates that empty collection. -/
theorem invalid_empty_array_counterexample :
    (invalid (JSV.arr []) : Result Nat (List JSV)) = .failure [] ∧
    applyValidation (Result.failure ([] : List JSV) : Result (Nat → Nat) (List JSV))
      (Result.success 1) = .failure [] :=
  ⟨rfl, rfl⟩

/-- C3 (amended): `invalid` yields a singleton (hence non-empty) error
collection for every non-array argument; failures constructed by `combine`,
`sequence` and `validateObject` always carry a non-empty collection; and
`applyValidation` yields a non-empty collection provided its failing inputs
carry non-empty collections — but `invalid` of an array keeps the array as
the collection, so an empty array yields an empty collection. -/
theorem validation_failure_collections :
    (∀ (β : Type) (e : JSV), isArray e = false →
      (invalid e : Result β (List JSV)) = .failure [e]) ∧
    (∀ (β ε : Type) (vs : List (Result β (List ε))) (es : List ε),
      combine vs = .failure es → es ≠ []) ∧
    (∀ (β ε : Type) (vs : List (Result β (List ε))) (es : List ε),
      sequence vs = .failure es → es ≠ []) ∧
    (∀ (κ ι β ε : Type) (validators : List (κ × (ι → Result β (List ε))))
      (input : κ → ι) (es : List ε),
      validateObject validators input = .failure es → es ≠ []) ∧
    (∀ (β γ ε : Type) (fv : Result (β → γ) (List ε)) (v : Result β (List ε))
      (es : List ε),
      (∀ es2 : List ε, fv = .failure es2 → es2 ≠ []) →
      (∀ es2 : List ε, v = .failure es2 → es2 ≠ []) →
      applyValidation fv v = .failure es → es ≠ []) := by
  refine ⟨?_, ?_, ?_, ?_, ?_⟩
  · intro β e he
    cases e with
    | num n => rfl
    | str s => rfl
    | arr l => simp [isArray] at he
  · intro β ε vs es h
    unfold combine at h
    split at h
    · rename_i hlen
      injection h with h1
      subst h1
      intro hnil
      rw [hnil] at hlen
      simp at hlen
    · exact absurd h (by simp)
  · intro β ε vs es h
    unfold sequence at h
    split at h
    · rename_i hlen
      injection h with h1
      subst h1
      intro hnil
      rw [hnil] at hlen
      simp at hlen
    · exact absurd h (by simp)
  · intro κ ι β ε validators input es h
    unfold validateObject at h
    split at h
    · rename_i hlen
      injection h with h1
      subst h1
      intro hnil
      rw [hnil] at hlen
      simp at hlen
    · exact absurd h (by simp)
  · intro β γ ε fv v es hfv hv h
    cases fv with
    | success f =>
      cases v with
      | success a => exact absurd h (by simp [applyValidation])
      | failure es2 =>
        have hne := hv es2 rfl
        simp [applyValidation] at h
        subst h
        simpa using hne
    | failure es1 =>
      have hne := hfv es1 rfl
      cases v with
      | success a =>
        simp [applyValidation] at h
        subst h
        simpa using hne
      | failure es2 =>
        simp [applyValidation] at h
        subst h
        simp [hne]

/-- Witness for C3 (amended): a non-array argument yields the singleton
collection, and a concrete `combine` failure is non-empty. -/
theorem validation_failure_collections_witness :
    (invalid (JSV.str "x") : Result Nat (List JSV)) = .failure [JSV.str "x"] ∧
    (["e1", "e2"] : List String) ≠ [] := by
  have h := validation_failure_collections
  refine ⟨h.1 Nat (JSV.str "x") rfl, ?_⟩
  exact h.2.1 Nat String [Result.failure ["e1", "e2"]] ["e1", "e2"] (by decide)

/-- C4 (counterexample to the claim as stated): for a failure whose single
error is itself an array, the round trip flattens it — the error collection
of `toResult(fromResult(r))` is the array itself, not a one-element
collection holding it. -/
theorem roundtrip_array_error_counterexample :
    toResult (fromResult (Result.failure (JSV.arr [JSV.num 1, JSV.num 2]) :
      Result Nat JSV)) = .failure [JSV.num 1, JSV.num 2] ∧
    (Result.failure [JSV.num 1, JSV.num 2] : Result Nat (List JSV)) ≠
      .failure [JSV.arr [JSV.num 1, JSV.num 2]] := by
  constructor
  · rfl
  · intro h
    injection h with h1
    injection h1 with h2 h3
    exact JSV.noConfusion h2

/-- C4 (amended): `toResult (fromResult r)` equals `r` for every success;
for every failure whose single error `e` is not an array, the round trip
yields a failure with the one-element collection `[e]` rather than `e`
itself; when `e` is itself an array, the round trip yields `failure e`
(the array becomes the collection). -/
theorem result_validation_roundtrip :
    (∀ (β : Type) (v : β),
      toResult (fromResult (Result.success v : Result β JSV)) = .success v) ∧
    (∀ (β : Type) (e : JSV), isArray e = false →
      toResult (fromResult (Result.failure e : Result β JSV)) = .failure [e]) ∧
    (∀ (β : Type) (es : List JSV),
      toResult (fromResult (Result.failure (JSV.arr es) : Result β JSV)) =
        .failure es) := by
  refine ⟨fun β v => rfl, ?_, fun β es => rfl⟩
  intro β e he
  cases e with
  | num n => rfl
  | str s => rfl
  | arr l => simp [isArray] at he

/-- Witness for C4 (amended) at a concrete success and a concrete non-array
error. -/
theorem result_validation_roundtrip_witness :
    toResult (fromResult (Result.failure (JSV.str "x") : Result Nat JSV)) =
      .failure [JSV.str "x"] ∧
    toResult (fromResult (Result.success (7 : Nat) : Result Nat JSV)) =
      .success 7 := by
  have h := result_validation_roundtrip
  exact ⟨h.2.1 Nat (JSV.str "x") rfl, h.1 Nat 7⟩

/-!  Helper lemmas about `retry`. -/

lemma map_range_shift {χ : Type} (g : Nat → χ) (d a : Nat) :
    (List.range (d + 1)).map (fun i => g (a + i)) =
      g a :: (List.range d).map (fun i => g (a + 1 + i)) := by
  rw [List.range_succ_eq_map, List.map_cons, List.map_map]
  simp only [List.cons.injEq]
  constructor
  · rfl
  · apply List.map_congr_left
    intro i _
    simp only [Function.comp_apply]
    congr 1
    omega

lemma retryGo_base {α ε : Type} (fn : Nat → Result α ε) (m : Int)
    (attempt : Nat) (le : Option ε) (inv : Nat) (calls : List (Nat × ε)) :
    retryGo fn m 0 attempt le inv calls = ⟨.failure le, inv, calls⟩ :=
  rfl

lemma retryGo_step_success {α ε : Type} (fn : Nat → Result α ε) (m : Int)
    (fuel attempt : Nat) (le : Option ε) (inv : Nat) (calls : List (Nat × ε))
    (v : α) (hf : fn attempt = .success v) :
    retryGo fn m (fuel + 1) attempt le inv calls = ⟨.success v, inv + 1, calls⟩ := by
  simp only [retryGo, hf]

lemma retryGo_step_failure {α ε : Type} (fn : Nat → Result α ε) (m : Int)
    (fuel attempt : Nat) (le : Option ε) (inv : Nat) (calls : List (Nat × ε))
    (e : ε) (hf : fn attempt = .failure e) :
    retryGo fn m (fuel + 1) attempt le inv calls =
      if (attempt : Int) < m then
        retryGo fn m fuel (attempt + 1) (some e) (inv + 1)
          (calls ++ [(attempt, e)])
      else retryGo fn m fuel (attempt + 1) (some e) (inv + 1) calls := by
  simp only [retryGo, hf]

lemma retryGo_inv_le {α ε : Type} (fn : Nat → Result α ε) (m : Int) :
    ∀ (fuel attempt : Nat) (le : Option ε) (inv : Nat)
      (calls : List (Nat × ε)),
      (retryGo fn m fuel attempt le inv calls).invocations ≤ inv + fuel
  | 0, _, _, inv, _ => by simp [retryGo_base]
  | fuel + 1, attempt, le, inv, calls => by
    cases hf : fn attempt with
    | success v =>
      rw [retryGo_step_success fn m fuel attempt le inv calls v hf]
      show inv + 1 ≤ inv + (fuel + 1)
      omega
    | failure e =>
      rw [retryGo_step_failure fn m fuel attempt le inv calls e hf]
      by_cases hc : (attempt : Int) < m
      · rw [if_pos hc]
        have := retryGo_inv_le fn m fuel (attempt + 1) (some e) (inv + 1)
          (calls ++ [(attempt, e)])
        omega
      · rw [if_neg hc]
        have := retryGo_inv_le fn m fuel (attempt + 1) (some e) (inv + 1) calls
        omega

lemma retryGo_all_fail {α ε : Type} (fn : Nat → Result α ε) (m : Int)
    (errs : Nat → ε) :
    ∀ (n attempt : Nat) (le : Option ε) (inv : Nat) (calls : List (Nat × ε)),
      (attempt : Int) + (n + 1) = m + 1 →
      (∀ k, attempt ≤ k → k ≤ attempt + n → fn k = .failure (errs k)) →
      retryGo fn m (n + 1) attempt le inv calls =
        ⟨.failure (some (errs (attempt + n))), inv + (n + 1),
          calls ++ (List.range n).map (fun i => (attempt + i, errs (attempt + i)))⟩
  | 0, attempt, le, inv, calls, hm, hfail => by
    have h0 : fn attempt = .failure (errs attempt) :=
      hfail attempt (Nat.le_refl _) (by omega)
    have hc : ¬ ((attempt : Int) < m) := by omega
    rw [retryGo_step_failure fn m 0 attempt le inv calls _ h0, if_neg hc,
      retryGo_base]
    simp
  | n2 + 1, attempt, le, inv, calls, hm, hfail => by
    have h0 : fn attempt = .failure (errs attempt) :=
      hfail attempt (Nat.le_refl _) (by omega)
    have hc : (attempt : Int) < m := by omega
    rw [retryGo_step_failure fn m (n2 + 1) attempt le inv calls _ h0,
      if_pos hc,
      retryGo_all_fail fn m errs n2 (attempt + 1) (some (errs attempt))
        (inv + 1) (calls ++ [(attempt, errs attempt)]) (by omega)
        (fun k hk1 hk2 => hfail k (by omega) (by omega))]
    simp only [RetryOutcome.mk.injEq]
    refine ⟨?_, by omega, ?_⟩
    · have heq : attempt + 1 + n2 = attempt + (n2 + 1) := by omega
      rw [heq]
    · rw [List.append_assoc]
      congr 1
      rw [map_range_shift (fun x => (x, errs x)) n2 attempt]
      simp

lemma retryGo_first_success {α ε : Type} (fn : Nat → Result α ε) (m : Int)
    (errs : Nat → ε) :
    ∀ (d fuel attempt : Nat) (le : Option ε) (inv : Nat)
      (calls : List (Nat × ε)) (v : α),
      d < fuel →
      (attempt : Int) + d ≤ m →
      (∀ j, j < d → fn (attempt + j) = .failure (errs (attempt + j))) →
      fn (attempt + d) = .success v →
      retryGo fn m fuel attempt le inv calls =
        ⟨.success v, inv + (d + 1),
          calls ++ (List.range d).map (fun i => (attempt + i, errs (attempt + i)))⟩
  | 0, fuel, attempt, le, inv, calls, v, hfuel, hb, hpre, hsucc => by
    cases fuel with
    | zero => exact absurd hfuel (by omega)
    | succ fuel2 =>
      rw [retryGo_step_success fn m fuel2 attempt le inv calls v hsucc]
      simp
  | d2 + 1, fuel, attempt, le, inv, calls, v, hfuel, hb, hpre, hsucc => by
    cases fuel with
    | zero => exact absurd hfuel (by omega)
    | succ fuel2 =>
      have h0 : fn attempt = .failure (errs attempt) := hpre 0 (by omega)
      have hc : (attempt : Int) < m := by omega
      rw [retryGo_step_failure fn m fuel2 attempt le inv calls _ h0,
        if_pos hc,
        retryGo_first_success fn m errs d2 fuel2 (attempt + 1)
          (some (errs attempt)) (inv + 1) (calls ++ [(attempt, errs attempt)]) v
          (by omega) (by push_cast; push_cast at hb; omega)
          (fun j hj => by
            have heq : attempt + 1 + j = attempt + (j + 1) := by omega
            rw [heq]
            exact hpre (j + 1) (by omega))
          (by
            have heq : attempt + 1 + d2 = attempt + (d2 + 1) := by omega
            rw [heq]
            exact hsucc)]
      have hinv : inv + 1 + (d2 + 1) = inv + (d2 + 1 + 1) := by omega
      rw [hinv, List.append_assoc, List.singleton_append,
        map_range_shift (fun x => (x, errs x)) d2 attempt]

/-- C10: calling `retry` with `maxAttempts` equal to 0 or any value below 1
never invokes the operation and returns — without raising any exception — a
failure whose error payload is the uninitialized `lastError`, that is,
`undefined` (modelled as `none`), with no `onRetry` calls. -/
theorem retry_below_one_never_invokes (α ε : Type) (fn : Nat → Result α ε)
    (m : Int) (hm : m < 1) :
    retry fn m = ⟨.failure none, 0, []⟩ := by
  unfold retry
  have h0 : m.toNat = 0 := by omega
  rw [h0]
  rfl

/-- Witness for C10 at `maxAttempts = 0` and a negative `maxAttempts`. -/
theorem retry_below_one_witness :
    retry (fun k => (Result.success k : Result Nat String)) 0 =
      ⟨.failure none, 0, []⟩ ∧
    retry (fun k => (Result.success k : Result Nat String)) (-2) =
      ⟨.failure none, 0, []⟩ :=
  ⟨retry_below_one_never_invokes Nat String _ 0 (by decide),
    retry_below_one_never_invokes Nat String _ (-2) (by decide)⟩

/-- C7: with `maxAttempts ≥ 1`, `retry` invokes the operation at most
`maxAttempts` times; if every invocation up to `maxAttempts` fails, it is
invoked exactly `maxAttempts` times, the returned failure carries the final
invocation's error, and `onRetry` is called with the 1-based attempt number
and the error after each failing attempt except the last; if the first
success happens on attempt `d + 1 ≤ maxAttempts`, `retry` returns that
success after exactly `d + 1` invocations, with `onRetry` called for each of
the `d` failing attempts before it. -/
theorem retry_attempt_semantics (α ε : Type) (fn : Nat → Result α ε)
    (errs : Nat → ε) (m : Int) (hm : 1 ≤ m) :
    (retry fn m).invocations ≤ m.toNat ∧
    ((∀ k : Nat, 1 ≤ k → (k : Int) ≤ m → fn k = .failure (errs k)) →
      retry fn m = ⟨.failure (some (errs m.toNat)), m.toNat,
        (List.range (m.toNat - 1)).map (fun i => (1 + i, errs (1 + i)))⟩) ∧
    (∀ (d : Nat) (v : α), (d : Int) < m →
      (∀ j, j < d → fn (1 + j) = .failure (errs (1 + j))) →
      fn (1 + d) = .success v →
      retry fn m = ⟨.success v, d + 1,
        (List.range d).map (fun i => (1 + i, errs (1 + i)))⟩) := by
  have hn : m.toNat = (m.toNat - 1) + 1 := by omega
  refine ⟨?_, ?_, ?_⟩
  · have h := retryGo_inv_le fn m m.toNat 1 none 0 []
    unfold retry
    omega
  · intro hfail
    unfold retry
    conv_lhs => rw [hn]
    rw [retryGo_all_fail fn m errs (m.toNat - 1) 1 none 0 [] (by omega)
      (fun k hk1 hk2 => hfail k hk1 (by omega))]
    have h1 : 1 + (m.toNat - 1) = m.toNat := by omega
    have h2 : 0 + ((m.toNat - 1) + 1) = m.toNat := by omega
    rw [h1, h2, List.nil_append]
  · intro d v hd hfailpre hsucc
    unfold retry
    rw [retryGo_first_success fn m errs d m.toNat 1 none 0 [] v (by omega)
      (by omega) hfailpre hsucc]
    have h2 : 0 + (d + 1) = d + 1 := by omega
    rw [h2, List.nil_append]

/-- Witness for C7: an always-failing operation with `maxAttempts = 3` is
invoked exactly 3 times, returns the third error, and triggers `onRetry`
twice; an operation succeeding on its second invocation returns that success
after 2 invocations with one `onRetry` call. -/
theorem retry_attempt_semantics_witness :
    retry (fun k => (Result.failure k : Result Nat Nat)) 3 =
      ⟨.failure (some 3), 3, [(1, 1), (2, 2)]⟩ ∧
    retry (fun k => if k == 2 then (Result.success 9 : Result Nat Nat)
      else .failure k) 3 = ⟨.success 9, 2, [(1, 1)]⟩ := by
  have h1 := retry_attempt_semantics Nat Nat (fun k => Result.failure k)
    (fun k => k) 3 (by decide)
  have h2 := retry_attempt_semantics Nat Nat
    (fun k => if k == 2 then (Result.success 9 : Result Nat Nat)
      else .failure k) (fun k => k) 3 (by decide)
  constructor
  · exact (h1.2.1 (fun k hk1 hk2 => rfl)).trans (by decide)
  · exact (h2.2.2 1 9 (by decide)
      (fun j hj => by
        have hj0 : j = 0 := by omega
        subst hj0
        rfl)
      rfl).trans (by decide)

end PipelineTs
